import Mathlib

/-!
Shallow embedding of the lexical analyser of `src/lexer.rs` (a Lua-like
language lexer).  The embedding follows the Rust source line by line:

* `TokenPosition`, `Lexer` state, `Token` mirror the Rust types;
* the macros `skip!`, `peek!`, `scan_op!`, `skip_whitespace!`, `read_line!`
  are embedded as the functions `advance`, list lookups, `scanOp1`/`scanOp2`,
  `skipWS`, `readLine`;
* the `Iterator::next` method is the function `next`, producing either a
  `Lexeme` and a successor state, an end-of-stream signal, or a fatal error
  (the Rust code panics; panics are represented by the `LexError` type,
  without the positional text of the panic message);
* the `f64` payload of `Token::Number` is represented by the buffer string
  the Rust code parses (decimal path) or by the exact integer value
  (hexadecimal path), since no claim depends on floating-point bit patterns;
  the acceptance conditions of Rust's `str::parse::<f64>` and
  `i64::from_str_radix(_, 16)` are modelled by `rustFloatAccepts` and
  `i64FromStrRadix16`.
-/

namespace Lua5

/-- Positional information for lexical tokens (`TokenPosition` in the source).
The Rust fields are `u32`; positions only ever increase by one per consumed
character so arithmetic never approaches `2^32` for the inputs considered,
and we use `Nat`. -/
structure TokenPosition where
  line : Nat
  pos : Nat
deriving DecidableEq, Repr

/-- The `Default` impl of `TokenPosition`: `{ line: 1, pos: 0 }`. -/
def startPos : TokenPosition := ⟨1, 0⟩

/-- One step of the position bookkeeping inside the `skip!` macro:
a consumed newline increments `line` and resets `pos`; any other consumed
character increments `pos`. -/
def advancePos (p : TokenPosition) (c : Char) : TokenPosition :=
  if c = '\n' then ⟨p.line + 1, 0⟩ else ⟨p.line, p.pos + 1⟩

/-- Folded position bookkeeping over a list of consumed characters. -/
def posAfter (p : TokenPosition) (l : List Char) : TokenPosition :=
  l.foldl advancePos p

/-- The state of the `Lexer` struct: the remaining character stream `buf`
(the `Peekable<Chars>` buffer) and the current position `pos`. -/
structure LexState where
  buf : List Char
  pos : TokenPosition
deriving DecidableEq, Repr

/-- The `skip!(1)` macro: consume one character (if any), updating the
position per character.  `skip!(n)` is `n` iterations of this. -/
def advance (s : LexState) : LexState :=
  match s.buf with
  | [] => s
  | c :: cs => ⟨cs, advancePos s.pos c⟩

/-- Representation of the `f64` payload of `Token::Number`: the decimal
buffer that was parsed (decimal path) or the exact parsed integer
(hexadecimal path, before the `as f64` widening). -/
inductive NumRepr
  | dec (buf : String)
  | hexInt (v : Int)
deriving DecidableEq, Repr

/-- The `Token` enum of `src/token.rs`, restricted to the variants the lexer
can produce (the lexer never produces `Keyword`). -/
inductive Token
  | Number (v : NumRepr)
  | Ident (text : String)
  | StaticString (text : String)
  | Comment (text : String)
  | Hashbang (text : String)
  | Add | SubOrMinus | Mul | Div | Mod | Power | Len
  | Colon | DoubleColon | Semicolon | Comma
  | Assignment | Equal | NotEqual
  | LessThan | LessThanEqual | GreaterThan | GreaterThanEqual
  | MemberAccess | Concat | VarArgs
  | Dollar | Lambda
  | OpenBrace | CloseBrace | OpenParen | CloseParen | OpenBracket | CloseBracket
deriving DecidableEq, Repr

/-- A lexical token with positional information (`Lexeme` in the source). -/
structure Lexeme where
  tok : Token
  pos : TokenPosition
deriving DecidableEq, Repr

/-- The fatal errors (`log!(ERR ...)` panics) the lexer can raise.  The Rust
code panics with a formatted message; each constructor stands for one panic
site, carrying the data interpolated into the message (the position prefix of
the message is not modelled). -/
inductive LexError
  | unexpectedEndOfStream
  | unimplementedOperator (c : Char)
  | shebangNotOnFirstLine
  | invalidEscapeCode (c : Char)
  | unexpectedEndOfString
  | unexpectedCharInHexnum (c : Char)
  | unexpectedEndOfHexnum
  | unexpectedCharInExponent (c : Char)
  | multipleFractionalParts
  | multipleExponents
  | hexnumParseFailed (buf : String)
  | malformedNumber (buf : String)
deriving DecidableEq, Repr

/-- Rust's `char::is_whitespace` (the Unicode `White_Space` property),
used by `skip_whitespace!`. -/
def rustIsWhitespace (c : Char) : Bool :=
  let n := c.toNat
  (9 ≤ n && n ≤ 13) || n = 0x20 || n = 0x85 || n = 0xa0 || n = 0x1680 ||
  (0x2000 ≤ n && n ≤ 0x200a) || n = 0x2028 || n = 0x2029 || n = 0x202f ||
  n = 0x205f || n = 0x3000

/-- ASCII restriction of Rust's `char::is_alphabetic` (Unicode `Alphabetic`).
Every claim below involves only ASCII inputs, on which the two classes
coincide; non-ASCII alphabetic characters are not modelled. -/
def rustIsAlphabetic (c : Char) : Bool := c.isAlpha

/-- ASCII restriction of Rust's `char::is_alphanumeric`, as for
`rustIsAlphabetic`. -/
def rustIsAlphanumeric (c : Char) : Bool := c.isAlphanum

/-- Rust's `char::is_digit(16)`. -/
def isHexDigit (c : Char) : Bool :=
  c.isDigit || ('a' ≤ c && c ≤ 'f') || ('A' ≤ c && c ≤ 'F')

/-- The `skip_whitespace!` macro: consume while the head character is
whitespace. -/
def skipWSAux : TokenPosition → List Char → LexState
  | p, [] => ⟨[], p⟩
  | p, c :: cs =>
    if rustIsWhitespace c then skipWSAux (advancePos p c) cs else ⟨c :: cs, p⟩

/-- The `skip_whitespace!` macro applied to a lexer state. -/
def skipWS (s : LexState) : LexState := skipWSAux s.pos s.buf

/-- The loop inside `read_line!`: consume and accumulate characters until a
newline (left unconsumed) or end-of-stream. -/
def lineLoop : TokenPosition → List Char → List Char → (List Char × LexState)
  | p, [], acc => (acc, ⟨[], p⟩)
  | p, c :: cs, acc =>
    if c = '\n' then (acc, ⟨c :: cs, p⟩)
    else lineLoop (advancePos p c) cs (acc ++ [c])

/-- The `read_line!` macro: first `skip_whitespace!`, then read to
end-of-line or end-of-stream. -/
def readLine (s : LexState) : List Char × LexState :=
  let s1 := skipWS s
  lineLoop s1.pos s1.buf []

/-- The escape-decoding table inside the string branch of `Lexer::next`
(`None` stands for the `Invalid escape code` panic arm). -/
def escapeChar : Char → Option Char
  | '\\' => some '\\'
  | '\'' => some '\''
  | '"' => some '"'
  | 'a' => some (Char.ofNat 7)
  | 'b' => some (Char.ofNat 8)
  | 'v' => some (Char.ofNat 11)
  | 'f' => some (Char.ofNat 12)
  | 'n' => some '\n'
  | 'r' => some '\r'
  | 't' => some '\t'
  | '[' => some '['
  | ']' => some ']'
  | _ => none

/-- The `while let Some(chr) = peek!()` loop of the string branch: arguments
are the delimiter, the current position, the remaining stream (after the
opening delimiter), and the accumulated decoded buffer `buf`.  Exiting the
loop at end-of-stream falls through to the `emit!` just like the source. -/
def scanStringLoop (delim : Char) :
    TokenPosition → List Char → List Char → Except LexError (List Char × LexState)
  | p, [], acc => .ok (acc, ⟨[], p⟩)
  | p, c :: cs, acc =>
    if c = '\\' then
      match cs with
      | [] => .error .unexpectedEndOfString
      | c2 :: cs2 =>
        match escapeChar c2 with
        | some d => scanStringLoop delim (advancePos (advancePos p c) c2) cs2 (acc ++ [d])
        | none => .error (.invalidEscapeCode c2)
    else if c = delim then .ok (acc, ⟨cs, advancePos p c⟩)
    else scanStringLoop delim (advancePos p c) cs (acc ++ [c])

/-- The `loop` of the numeric branch.  Arguments: hexadecimal mode flag, the
position, the remaining stream, the `has_exponent` and `has_fractional`
flags, and the accumulated buffer.  The arm order follows the source:
`'.'` first; then the `is_num!`-guarded arm, whose guard itself panics when
an exponent has been seen and the character is not a decimal digit; then the
`e`/`E` arm, which on a following `-` consumes the minus but pushes the
exponent-marker character again (`buf.push(chr)` with `chr` still bound to
the marker — the source's exponent-sign defect); any other character breaks
the loop unconsumed. -/
def scanNumLoop (isHex : Bool) :
    TokenPosition → List Char → Bool → Bool → List Char →
    Except LexError (List Char × LexState)
  | p, [], _, _, acc => .ok (acc, ⟨[], p⟩)
  | p, c :: cs, hasExp, hasFrac, acc =>
    if c = '.' then
      if hasFrac then .error .multipleFractionalParts
      else scanNumLoop isHex (advancePos p c) cs hasExp true (acc ++ [c])
    else if hasExp && !c.isDigit then .error (.unexpectedCharInExponent c)
    else if (isHex && isHexDigit c) || (!isHex && c.isDigit) then
      scanNumLoop isHex (advancePos p c) cs hasExp hasFrac (acc ++ [c])
    else if c = 'e' || c = 'E' then
      if hasExp then .error .multipleExponents
      else
        match cs with
        | '-' :: cs2 =>
          scanNumLoop isHex (advancePos (advancePos p c) '-') cs2 true hasFrac (acc ++ [c, c])
        | [] => scanNumLoop isHex (advancePos p c) [] true hasFrac (acc ++ [c])
        | c2 :: cs2 =>
          scanNumLoop isHex (advancePos p c) (c2 :: cs2) true hasFrac (acc ++ [c])
    else .ok (acc, ⟨c :: cs, p⟩)

/-- Numeric value of a hexadecimal digit (total; only applied to characters
satisfying `isHexDigit`). -/
def hexDigitVal (c : Char) : Nat :=
  if c.isDigit then c.toNat - 48
  else if 'a' ≤ c && c ≤ 'f' then c.toNat - 87
  else if 'A' ≤ c && c ≤ 'F' then c.toNat - 55
  else 0

/-- Base-16 value of a list of hexadecimal digits. -/
def hexNatVal (l : List Char) : Nat :=
  l.foldl (fun a c => 16 * a + hexDigitVal c) 0

/-- Acceptance and value of Rust's `i64::from_str_radix(s, 16)`: an optional
sign, then at least one base-16 digit, with failure on any other character,
on the empty digit string, and on signed-64-bit overflow. -/
def i64FromStrRadix16 (s : List Char) : Option Int :=
  let (neg, body) :=
    match s with
    | c :: cs =>
      if c = '+' then (false, cs)
      else if c = '-' then (true, cs)
      else (false, c :: cs)
    | [] => (false, ([] : List Char))
  if body = [] then none
  else if !body.all isHexDigit then none
  else if neg then
    if hexNatVal body ≤ 2 ^ 63 then some (-(hexNatVal body : Int)) else none
  else
    if hexNatVal body ≤ 2 ^ 63 - 1 then some (hexNatVal body : Int) else none

/-- The exponent part of the grammar accepted by Rust's
`str::parse::<f64>`: nothing, or `e`/`E`, an optional sign, and at least one
decimal digit reaching the end of the string. -/
def floatExpOk : List Char → Bool
  | [] => true
  | c :: cs =>
    (c = 'e' || c = 'E') &&
      (let body :=
        match cs with
        | c2 :: t => if c2 = '+' || c2 = '-' then t else c2 :: t
        | [] => []
      !body.isEmpty && body.all Char.isDigit)

/-- Acceptance of Rust's `str::parse::<f64>` (its `FromStr` grammar): an
optional sign, then `inf`/`infinity`/`nan` (case-insensitive) or a mantissa
`Digit+ | Digit+ '.' Digit* | '.' Digit+` followed by an optional exponent
part. -/
def rustFloatAccepts (s : List Char) : Bool :=
  let body :=
    match s with
    | c :: cs => if c = '+' || c = '-' then cs else c :: cs
    | [] => []
  let low := body.map Char.toLower
  if low = "inf".data || low = "infinity".data || low = "nan".data then true
  else
    let d1 := body.takeWhile Char.isDigit
    let r1 := body.dropWhile Char.isDigit
    match r1 with
    | '.' :: cs =>
      let d2 := cs.takeWhile Char.isDigit
      let r2 := cs.dropWhile Char.isDigit
      (!d1.isEmpty || !d2.isEmpty) && floatExpOk r2
    | _ => !d1.isEmpty && floatExpOk r1

/-- The one-token form of `scan_op!`: the head of the stream is `c`, the
expected continuation is looked up one character ahead; on a match the head
is consumed (`skip!(1)`) and the token returned, on any other character or
end-of-stream the corresponding panic is raised. -/
def scanOp1 (p : TokenPosition) (c : Char) (cs : List Char) (expected : Char)
    (tk : Token) : Except LexError (Token × LexState) :=
  match cs.head? with
  | some c1 =>
    if c1 = expected then .ok (tk, ⟨cs, advancePos p c⟩)
    else .error (.unimplementedOperator c1)
  | none => .error .unexpectedEndOfStream

/-- The two-token form of `scan_op!`: on a matching continuation the head is
consumed and `tka` returned, otherwise nothing is consumed and `tkb` is
returned. -/
def scanOp2 (p : TokenPosition) (c : Char) (cs : List Char) (expected : Char)
    (tka tkb : Token) : Token × LexState :=
  match cs.head? with
  | some c1 =>
    if c1 = expected then (tka, ⟨cs, advancePos p c⟩)
    else (tkb, ⟨c :: cs, p⟩)
  | none => (tkb, ⟨c :: cs, p⟩)

/-- The identifier loop of `Lexer::next`: consume while alphanumeric or
underscore (the branch is entered on the still-unconsumed head, which is
alphabetic or an underscore). -/
def identLoop : TokenPosition → List Char → List Char → (List Char × LexState)
  | p, [], acc => (acc, ⟨[], p⟩)
  | p, c :: cs, acc =>
    if rustIsAlphanumeric c || c = '_' then identLoop (advancePos p c) cs (acc ++ [c])
    else (acc, ⟨c :: cs, p⟩)

/-- The `is_hexadecimal` detection block of the numeric branch: triggered
when the character after the unconsumed head digit `c` is `x`/`X` and `c` is
`0`; the character after that must then exist and be a hexadecimal digit or
the corresponding panic is raised; on success `0x` is consumed
(`skip!(2)`). -/
def hexModeCheck (p : TokenPosition) (c : Char) (cs : List Char) :
    Except LexError (Bool × LexState) :=
  match cs.head? with
  | some x =>
    if x = 'x' || x = 'X' then
      if c ≠ '0' then .ok (false, ⟨c :: cs, p⟩)
      else
        match cs.get? 1 with
        | some d =>
          if !isHexDigit d then .error (.unexpectedCharInHexnum d)
          else .ok (true, advance (advance ⟨c :: cs, p⟩))
        | none => .error .unexpectedEndOfHexnum
    else .ok (false, ⟨c :: cs, p⟩)
  | none => .ok (false, ⟨c :: cs, p⟩)

/-- The numeric branch of `Lexer::next`, entered on an unconsumed decimal
digit `c` with remaining stream `cs`: hexadecimal-mode detection, the
scanning loop, and the value construction from the buffer
(`i64::from_str_radix(_, 16)` then `as f64` for hexadecimal buffers,
`str::parse::<f64>` for decimal ones, each panicking on failure). -/
def scanNumber (p : TokenPosition) (c : Char) (cs : List Char) :
    Except LexError (Token × LexState) :=
  match hexModeCheck p c cs with
  | .error e => .error e
  | .ok (isHex, s1) =>
    match scanNumLoop isHex s1.pos s1.buf false false [] with
    | .error e => .error e
    | .ok (buf, s2) =>
      if isHex then
        match i64FromStrRadix16 buf with
        | some v => .ok (.Number (.hexInt v), s2)
        | none => .error (.hexnumParseFailed ⟨buf⟩)
      else
        if rustFloatAccepts buf then .ok (.Number (.dec ⟨buf⟩), s2)
        else .error (.malformedNumber ⟨buf⟩)

/-- The big `match chr` of `Lexer::next`, dispatching on the unconsumed head
character `c` with remaining stream `cs` at position `p`.  The result is the
produced token, the state after the branch, and the `no_skip` flag (set only
by the identifier branch); branches that only peek leave the state
unconsumed, matching the source, and the extra `skip!(1)` guarded by
`no_skip` is applied by `next` below. -/
def dispatch (p : TokenPosition) (c : Char) (cs : List Char) :
    Except LexError (Token × LexState × Bool) :=
  match c with
  | '(' => .ok (.OpenParen, ⟨c :: cs, p⟩, false)
  | ')' => .ok (.CloseParen, ⟨c :: cs, p⟩, false)
  | '[' => .ok (.OpenBracket, ⟨c :: cs, p⟩, false)
  | ']' => .ok (.CloseBracket, ⟨c :: cs, p⟩, false)
  | '{' => .ok (.OpenBrace, ⟨c :: cs, p⟩, false)
  | '}' => .ok (.CloseBrace, ⟨c :: cs, p⟩, false)
  | '|' => .ok (.Lambda, ⟨c :: cs, p⟩, false)
  | ',' => .ok (.Comma, ⟨c :: cs, p⟩, false)
  | ';' => .ok (.Semicolon, ⟨c :: cs, p⟩, false)
  | '+' => .ok (.Add, ⟨c :: cs, p⟩, false)
  | '*' => .ok (.Mul, ⟨c :: cs, p⟩, false)
  | '/' => .ok (.Div, ⟨c :: cs, p⟩, false)
  | '%' => .ok (.Mod, ⟨c :: cs, p⟩, false)
  | '^' => .ok (.Power, ⟨c :: cs, p⟩, false)
  | '$' => .ok (.Dollar, ⟨c :: cs, p⟩, false)
  | '~' =>
    match scanOp1 p c cs '=' .NotEqual with
    | .ok ts => .ok (ts.1, ts.2, false)
    | .error e => .error e
  | '=' =>
    let ts := scanOp2 p c cs '=' .Equal .Assignment
    .ok (ts.1, ts.2, false)
  | '<' =>
    let ts := scanOp2 p c cs '=' .LessThanEqual .LessThan
    .ok (ts.1, ts.2, false)
  | '>' =>
    let ts := scanOp2 p c cs '=' .GreaterThanEqual .GreaterThan
    .ok (ts.1, ts.2, false)
  | ':' =>
    let ts := scanOp2 p c cs ':' .DoubleColon .Colon
    .ok (ts.1, ts.2, false)
  | '.' =>
    match cs with
    | '.' :: cs1 =>
      let ts := scanOp2 (advancePos p c) '.' cs1 '.' .VarArgs .Concat
      .ok (ts.1, ts.2, false)
    | _ => .ok (.MemberAccess, ⟨c :: cs, p⟩, false)
  | '#' =>
    match cs with
    | '!' :: cs1 =>
      if p.line = 1 ∧ p.pos = 0 then
        let s1 := advance (advance ⟨c :: '!' :: cs1, p⟩)
        let r := readLine s1
        .ok (.Hashbang ⟨r.1⟩, r.2, false)
      else .error .shebangNotOnFirstLine
    | _ => .ok (.Len, ⟨c :: cs, p⟩, false)
  | '-' =>
    match cs with
    | '-' :: cs1 =>
      let s1 := advance (advance ⟨c :: '-' :: cs1, p⟩)
      let r := readLine s1
      .ok (.Comment ⟨r.1⟩, r.2, false)
    | _ => .ok (.SubOrMinus, ⟨c :: cs, p⟩, false)
  | '"' =>
    match scanStringLoop c (advancePos p c) cs [] with
    | .ok rs => .ok (.StaticString ⟨rs.1⟩, rs.2, false)
    | .error e => .error e
  | '\'' =>
    match scanStringLoop c (advancePos p c) cs [] with
    | .ok rs => .ok (.StaticString ⟨rs.1⟩, rs.2, false)
    | .error e => .error e
  | c =>
    if rustIsAlphabetic c || c = '_' then
      let r := identLoop p (c :: cs) []
      .ok (.Ident ⟨r.1⟩, r.2, true)
    else if c.isDigit then
      match scanNumber p c cs with
      | .ok ts => .ok (ts.1, ts.2, false)
      | .error e => .error e
    else .error (.unimplementedOperator c)

/-- The outcome of one pull of the iterator: end of stream, a lexeme with the
successor lexer state, or a panic. -/
inductive NextResult
  | eos
  | tok (l : Lexeme) (s : LexState)
  | fatal (e : LexError)
deriving DecidableEq, Repr

/-- The body of `Iterator::next` for `Lexer`: skip whitespace, capture `now`,
dispatch on the head character, and perform the trailing `skip!(1)` unless
`no_skip` was set. -/
def next (s : LexState) : NextResult :=
  match skipWS s with
  | ⟨[], _⟩ => .eos
  | ⟨c :: cs, p⟩ =>
    match dispatch p c cs with
    | .error e => .fatal e
    | .ok (t, s', noSkip) => .tok ⟨t, p⟩ (if noSkip then s' else advance s')

/-- Result of pulling the iterator to completion: the lexeme sequence with
normal termination, the sequence produced before a panic, or (never reached
with adequate fuel — every produced lexeme consumes at least one character)
fuel exhaustion. -/
inductive RunResult
  | done (ls : List Lexeme)
  | fatal (ls : List Lexeme) (e : LexError)
  | fuelOut (ls : List Lexeme) (s : LexState)
deriving DecidableEq, Repr

/-- Pull the lexer repeatedly, collecting lexemes, bounded by fuel. -/
def runLexer : Nat → LexState → RunResult
  | 0, s => .fuelOut [] s
  | fuel + 1, s =>
    match next s with
    | .eos => .done []
    | .fatal e => .fatal [] e
    | .tok l s' =>
      match runLexer fuel s' with
      | .done ls => .done (l :: ls)
      | .fatal ls e => .fatal (l :: ls) e
      | .fuelOut ls st => .fuelOut (l :: ls) st

/-- `Lexer::new`: a fresh lexer over the full character stream at the default
position. -/
def newLexer (src : String) : LexState := ⟨src.data, startPos⟩

/-- Predicate for a character other than a newline (the continuation
condition of the `read_line!` loop). -/
def isNotNewline (c : Char) : Bool := c ≠ '\n'

/-- The whole analysis: a fresh lexer pulled to completion.  `length + 1`
units of fuel always suffice because every produced lexeme consumes at least
one character of the stream. -/
def tokenize (src : String) : RunResult :=
  runLexer (src.length + 1) (newLexer src)

/-! Helper lemmas about position bookkeeping and the scanning loops. -/

theorem advancePos_line_le (p : TokenPosition) (c : Char) :
    p.line ≤ (advancePos p c).line := by
  unfold advancePos
  split <;> simp

theorem posAfter_cons (p : TokenPosition) (c : Char) (l : List Char) :
    posAfter p (c :: l) = posAfter (advancePos p c) l := by
  simp [posAfter]

theorem posAfter_append (p : TokenPosition) (a b : List Char) :
    posAfter p (a ++ b) = posAfter (posAfter p a) b := by
  simp [posAfter, List.foldl_append]

theorem posAfter_line_le (l : List Char) : ∀ p : TokenPosition,
    p.line ≤ (posAfter p l).line := by
  induction l with
  | nil => intro p; simp [posAfter]
  | cons c cs ih =>
    intro p
    rw [posAfter_cons]
    exact le_trans (advancePos_line_le p c) (ih (advancePos p c))

theorem advance_line_le (s : LexState) : s.pos.line ≤ (advance s).pos.line := by
  unfold advance
  split
  · exact le_refl _
  · exact advancePos_line_le _ _

theorem skipWSAux_spec (cs : List Char) : ∀ p,
    skipWSAux p cs =
      ⟨cs.dropWhile rustIsWhitespace, posAfter p (cs.takeWhile rustIsWhitespace)⟩ := by
  induction cs with
  | nil => intro p; simp [skipWSAux, posAfter]
  | cons c cs ih =>
    intro p
    by_cases h : rustIsWhitespace c
    · simp [skipWSAux, h, ih, List.dropWhile_cons, List.takeWhile_cons, posAfter_cons]
    · simp [skipWSAux, h, List.dropWhile_cons, List.takeWhile_cons, posAfter]

theorem skipWS_spec (s : LexState) :
    skipWS s = ⟨s.buf.dropWhile rustIsWhitespace,
      posAfter s.pos (s.buf.takeWhile rustIsWhitespace)⟩ := by
  simp [skipWS, skipWSAux_spec]

theorem skipWS_not_ws (c : Char) (cs : List Char) (p : TokenPosition)
    (h : rustIsWhitespace c = false) : skipWS ⟨c :: cs, p⟩ = ⟨c :: cs, p⟩ := by
  simp [skipWS, skipWSAux, h]

theorem lineLoop_spec (cs : List Char) : ∀ p acc,
    lineLoop p cs acc =
      (acc ++ cs.takeWhile isNotNewline,
        ⟨cs.dropWhile isNotNewline, posAfter p (cs.takeWhile isNotNewline)⟩) := by
  induction cs with
  | nil => intro p acc; simp [lineLoop, posAfter]
  | cons c cs ih =>
    intro p acc
    by_cases h : c = '\n'
    · subst h
      simp [lineLoop, isNotNewline, posAfter]
    · simp [lineLoop, h, ih, isNotNewline, posAfter_cons]

theorem readLine_spec (s : LexState) :
    readLine s =
      ((s.buf.dropWhile rustIsWhitespace).takeWhile isNotNewline,
        ⟨(s.buf.dropWhile rustIsWhitespace).dropWhile isNotNewline,
          posAfter s.pos (s.buf.takeWhile rustIsWhitespace ++
            (s.buf.dropWhile rustIsWhitespace).takeWhile isNotNewline)⟩) := by
  simp [readLine, skipWS_spec, lineLoop_spec, posAfter_append]

theorem identLoop_line_le (cs : List Char) : ∀ p acc,
    p.line ≤ (identLoop p cs acc).2.pos.line := by
  induction cs with
  | nil => intro p acc; simp [identLoop]
  | cons c cs ih =>
    intro p acc
    unfold identLoop
    split
    · exact le_trans (advancePos_line_le p c) (ih _ _)
    · simp

theorem scanStringLoop_line_le (d : Char) (p : TokenPosition) (cs acc : List Char) :
    ∀ b s', scanStringLoop d p cs acc = .ok (b, s') → p.line ≤ s'.pos.line := by
  induction p, cs, acc using scanStringLoop.induct d with
  | case1 p acc =>
    intro b s' h
    simp [scanStringLoop] at h
    rw [← h.2]
  | case2 p acc =>
    intro b s' h
    simp [scanStringLoop] at h
  | case3 p acc c cs d2 hesc ih =>
    intro b s' h
    simp [scanStringLoop, hesc] at h
    exact le_trans (le_trans (advancePos_line_le _ _) (advancePos_line_le _ _)) (ih _ _ h)
  | case4 p acc c cs hesc =>
    intro b s' h
    simp [scanStringLoop, hesc] at h
  | case5 p cs acc hnd =>
    intro b s' h
    unfold scanStringLoop at h
    simp [hnd] at h
    rw [← h.2]
    exact advancePos_line_le _ _
  | case6 p c cs acc hne hnd ih =>
    intro b s' h
    unfold scanStringLoop at h
    simp [hne, hnd] at h
    exact le_trans (advancePos_line_le _ _) (ih _ _ h)

theorem scanNumLoop_line_le (hx : Bool) (p : TokenPosition) (cs : List Char)
    (hasExp hasFrac : Bool) (acc : List Char) :
    ∀ b s', scanNumLoop hx p cs hasExp hasFrac acc = .ok (b, s') →
      p.line ≤ s'.pos.line := by
  induction p, cs, hasExp, hasFrac, acc using scanNumLoop.induct hx with
  | case1 p e f acc =>
    intro b s' h
    unfold scanNumLoop at h
    simp at h
    rw [← h.2]
  | case2 p cs hasExp acc =>
    intro b s' h
    unfold scanNumLoop at h
    simp at h
  | case3 p cs hasExp hasFrac acc hf ih =>
    intro b s' h
    unfold scanNumLoop at h
    simp [hf] at h
    exact le_trans (advancePos_line_le _ _) (ih _ _ h)
  | case4 p c cs hasExp hasFrac acc hdot hguard =>
    intro b s' h
    unfold scanNumLoop at h
    simp [hdot, hguard] at h
  | case5 p c cs hasExp hasFrac acc hdot hguard hisnum ih =>
    intro b s' h
    unfold scanNumLoop at h
    simp [hdot, hguard, hisnum] at h
    exact le_trans (advancePos_line_le _ _) (ih _ _ h)
  | case6 p c cs hasFrac acc hdot hisnum he hguard =>
    intro b s' h
    unfold scanNumLoop at h
    simp [hdot, hisnum, he, hguard] at h
  | case7 p c hasExp hasFrac acc hdot hguard hisnum he hexp cs2 ih =>
    intro b s' h
    unfold scanNumLoop at h
    simp [hdot, hguard, hisnum, he, hexp] at h
    exact le_trans (le_trans (advancePos_line_le _ _) (advancePos_line_le _ _)) (ih _ _ h)
  | case8 p c hasExp hasFrac acc hdot hguard hisnum he hexp ih =>
    intro b s' h
    unfold scanNumLoop at h
    simp [hdot, hguard, hisnum, he, hexp] at h
    exact le_trans (advancePos_line_le _ _) (ih _ _ h)
  | case9 p c hasExp hasFrac acc hdot hguard hisnum he hexp c2 cs2 hc2 ih =>
    intro b s' h
    unfold scanNumLoop at h
    simp [hdot, hguard, hisnum, he, hexp, hc2] at h
    exact le_trans (advancePos_line_le _ _) (ih _ _ h)
  | case10 p c cs hasExp hasFrac acc hdot hguard hisnum he =>
    intro b s' h
    unfold scanNumLoop at h
    simp [hdot, hguard, hisnum, he] at h
    rw [← h.2]

theorem hexModeCheck_line_le (p : TokenPosition) (c : Char) (cs : List Char) :
    ∀ fl s1, hexModeCheck p c cs = .ok (fl, s1) → p.line ≤ s1.pos.line := by
  intro fl s1 h
  unfold hexModeCheck at h
  split at h
  · split at h
    · split at h
      · simp at h
        rw [← h.2]
      · split at h
        · split at h
          · simp at h
          · simp at h
            rw [← h.2]
            exact le_trans (advance_line_le ⟨c :: cs, p⟩) (advance_line_le _)
        · simp at h
    · simp at h
      rw [← h.2]
  · simp at h
    rw [← h.2]

theorem scanNumber_line_le (p : TokenPosition) (c : Char) (cs : List Char) :
    ∀ t s2, scanNumber p c cs = .ok (t, s2) → p.line ≤ s2.pos.line := by
  intro t s2 h
  unfold scanNumber at h
  split at h
  · simp at h
  · rename_i fl s1 heq
    split at h
    · simp at h
    · rename_i buf s3 heq2
      have h1 : p.line ≤ s1.pos.line := hexModeCheck_line_le p c cs fl s1 heq
      have h2 : s1.pos.line ≤ s3.pos.line := scanNumLoop_line_le fl s1.pos s1.buf false false [] buf s3 heq2
      split at h
      · split at h
        · simp at h
          rw [← h.2]
          exact le_trans h1 h2
        · simp at h
      · split at h
        · simp at h
          rw [← h.2]
          exact le_trans h1 h2
        · simp at h

theorem scanOp1_line_le (p : TokenPosition) (c : Char) (cs : List Char)
    (e : Char) (tk : Token) :
    ∀ t s', scanOp1 p c cs e tk = .ok (t, s') → p.line ≤ s'.pos.line := by
  intro t s' h
  unfold scanOp1 at h
  split at h
  · split at h
    · simp at h
      rw [← h.2]
      exact advancePos_line_le _ _
    · simp at h
  · simp at h

theorem scanOp2_line_le (p : TokenPosition) (c : Char) (cs : List Char)
    (e : Char) (tka tkb : Token) :
    p.line ≤ (scanOp2 p c cs e tka tkb).2.pos.line := by
  unfold scanOp2
  split
  · split
    · exact advancePos_line_le _ _
    · simp
  · simp

theorem readLine_line_le (s : LexState) : s.pos.line ≤ (readLine s).2.pos.line := by
  rw [readLine_spec]
  exact posAfter_line_le _ _

theorem skipWS_line_le (s : LexState) : s.pos.line ≤ (skipWS s).pos.line := by
  rw [skipWS_spec]
  exact posAfter_line_le _ _

theorem readLine_advance2_line_le (x : List Char) (p : TokenPosition) :
    p.line ≤ (readLine (advance (advance ⟨x, p⟩))).2.pos.line :=
  le_trans (le_trans (advance_line_le ⟨x, p⟩) (advance_line_le _)) (readLine_line_le _)

theorem dispatch_line_le (p : TokenPosition) (c : Char) (cs : List Char) :
    ∀ t s' ns, dispatch p c cs = .ok (t, s', ns) → p.line ≤ s'.pos.line := by
  intro t s' ns h
  unfold dispatch at h
  split at h
  all_goals try (simp at h; rw [← h.2.1])
  · split at h
    · rename_i ts heq
      simp at h
      rw [← h.2.1]
      exact scanOp1_line_le _ _ _ _ _ _ _ heq
    · simp at h
  · exact scanOp2_line_le _ _ _ _ _ _
  · exact scanOp2_line_le _ _ _ _ _ _
  · exact scanOp2_line_le _ _ _ _ _ _
  · exact scanOp2_line_le _ _ _ _ _ _
  · split at h
    · simp at h
      rw [← h.2.1]
      exact le_trans (advancePos_line_le _ _) (scanOp2_line_le _ _ _ _ _ _)
    · simp at h
      rw [← h.2.1]
  · split at h
    · split at h
      · simp at h
        rw [← h.2.1]
        exact readLine_advance2_line_le _ _
      · simp at h
    · simp at h
      rw [← h.2.1]
  · split at h
    · simp at h
      rw [← h.2.1]
      exact readLine_advance2_line_le _ _
    · simp at h
      rw [← h.2.1]
  · split at h
    · rename_i rs heq
      simp at h
      rw [← h.2.1]
      exact le_trans (advancePos_line_le _ _) (scanStringLoop_line_le _ _ _ _ _ _ heq)
    · simp at h
  · split at h
    · rename_i rs heq
      simp at h
      rw [← h.2.1]
      exact le_trans (advancePos_line_le _ _) (scanStringLoop_line_le _ _ _ _ _ _ heq)
    · simp at h
  · split at h
    · simp at h
      rw [← h.2.1]
      exact identLoop_line_le _ _ _
    · split at h
      · split at h
        · rename_i ts heq
          simp at h
          rw [← h.2.1]
          exact scanNumber_line_le _ _ _ _ _ heq
        · simp at h
      · simp at h

theorem next_line_le (s : LexState) :
    ∀ l s', next s = .tok l s' → s.pos.line ≤ s'.pos.line := by
  intro l s' h
  unfold next at h
  split at h
  · simp at h
  · rename_i heq
    split at h
    · simp at h
    · rename_i sx c cs p dx t2 s2 ns2 heq2
      simp at h
      rw [← h.2]
      have hw : s.pos.line ≤ p.line := by
        have hle := skipWS_line_le s
        rw [heq] at hle
        exact hle
      have hd := dispatch_line_le p c cs _ _ _ heq2
      cases ns2 with
      | true => simpa using le_trans hw hd
      | false => simpa using le_trans (le_trans hw hd) (advance_line_le s2)

theorem scanStringLoop_to_delim (d : Char) (body : List Char) :
    ∀ p acc rest, d ∉ body → '\\' ∉ body → d ≠ '\\' →
      scanStringLoop d p (body ++ d :: rest) acc =
        .ok (acc ++ body, ⟨rest, posAfter p (body ++ [d])⟩) := by
  induction body with
  | nil =>
    intro p acc rest h1 h2 h3
    unfold scanStringLoop
    simp [h3, posAfter]
  | cons c body ih =>
    intro p acc rest h1 h2 h3
    have hcd : c ≠ d := fun hh => h1 (hh ▸ List.mem_cons_self c body)
    have hcb : c ≠ '\\' := fun hh => h2 (hh ▸ List.mem_cons_self c body)
    have h1' : d ∉ body := fun hh => h1 (List.mem_cons_of_mem c hh)
    have h2' : '\\' ∉ body := fun hh => h2 (List.mem_cons_of_mem c hh)
    unfold scanStringLoop
    simp only [List.cons_append]
    rw [if_neg hcb, if_neg (fun hh => hcd hh)]
    rw [ih (advancePos p c) (acc ++ [c]) rest h1' h2' h3]
    simp [posAfter_cons, List.append_assoc]

theorem next_cons (c : Char) (cs : List Char) (p : TokenPosition)
    (h : rustIsWhitespace c = false) :
    next ⟨c :: cs, p⟩ =
      match dispatch p c cs with
      | .error e => .fatal e
      | .ok (t, s', noSkip) => .tok ⟨t, p⟩ (if noSkip then s' else advance s') := by
  unfold next
  rw [skipWS_not_ws _ _ _ h]

theorem dispatch_dquote (p : TokenPosition) (cs : List Char) :
    dispatch p '"' cs =
      match scanStringLoop '"' (advancePos p '"') cs [] with
      | .ok rs => .ok (.StaticString ⟨rs.1⟩, rs.2, false)
      | .error e => .error e := rfl

theorem dispatch_squote (p : TokenPosition) (cs : List Char) :
    dispatch p '\'' cs =
      match scanStringLoop '\'' (advancePos p '\'') cs [] with
      | .ok rs => .ok (.StaticString ⟨rs.1⟩, rs.2, false)
      | .error e => .error e := rfl

theorem dispatch_comment (p : TokenPosition) (rest : List Char) :
    dispatch p '-' ('-' :: rest) =
      .ok (.Comment ⟨(readLine (advance (advance ⟨'-' :: '-' :: rest, p⟩))).1⟩,
        (readLine (advance (advance ⟨'-' :: '-' :: rest, p⟩))).2, false) := rfl

theorem dispatch_hashbang (p : TokenPosition) (rest : List Char) :
    dispatch p '#' ('!' :: rest) =
      if p.line = 1 ∧ p.pos = 0 then
        .ok (.Hashbang ⟨(readLine (advance (advance ⟨'#' :: '!' :: rest, p⟩))).1⟩,
          (readLine (advance (advance ⟨'#' :: '!' :: rest, p⟩))).2, false)
      else .error .shebangNotOnFirstLine := rfl

theorem dispatch_zero (p : TokenPosition) (cs : List Char) :
    dispatch p '0' cs =
      match scanNumber p '0' cs with
      | .ok ts => .ok (ts.1, ts.2, false)
      | .error e => .error e := rfl

/-! Claim theorems. -/

/-- C4 counterexample: on the input `"a"b` the pull that emits the
`StaticString` leaves an empty remaining buffer, i.e. it consumed all four
characters of the input and not just the three characters of the literal —
refuting the conjunct that the lexer "has consumed exactly the characters of
the literal including both delimiters and nothing more". -/
theorem c4_string_pull_consumes_extra :
    next ⟨['"', 'a', '"', 'b'], startPos⟩ =
      .tok ⟨.StaticString "a", startPos⟩ ⟨[], ⟨1, 4⟩⟩ := by decide

/-- C4 amended: after emitting a `StringLiteral`, the lexer has consumed the
characters of the literal including both delimiters plus the single
character immediately following the closing quote (here `b`), so for an
input like `"a"b` the `b` never begins a subsequent token: the pull leaves
exactly the characters after that extra character, at the position obtained
by advancing over everything consumed. -/
theorem c4_amended_string_consumption (d b : Char) (body rest : List Char)
    (p : TokenPosition) (hd : d = '"' ∨ d = '\'') (h1 : d ∉ body)
    (h2 : '\\' ∉ body) :
    next ⟨d :: (body ++ d :: b :: rest), p⟩ =
      .tok ⟨.StaticString ⟨body⟩, p⟩
        ⟨rest, advancePos (posAfter (advancePos p d) (body ++ [d])) b⟩ := by
  have hnb : d ≠ '\\' := by rcases hd with h | h <;> subst h <;> decide
  have hnw : rustIsWhitespace d = false := by
    rcases hd with h | h <;> subst h <;> decide
  rw [next_cons _ _ _ hnw]
  rcases hd with h | h <;> subst h
  · rw [dispatch_dquote, scanStringLoop_to_delim _ _ _ _ _ h1 h2 hnb]
    simp [advance]
  · rw [dispatch_squote, scanStringLoop_to_delim _ _ _ _ _ h1 h2 hnb]
    simp [advance]

/-- C4 witness: the amended statement at the concrete input `"a"b`. -/
theorem c4_amended_witness :
    next ⟨'"' :: (['a'] ++ '"' :: 'b' :: []), startPos⟩ =
      .tok ⟨.StaticString ⟨['a']⟩, startPos⟩
        ⟨[], advancePos (posAfter (advancePos startPos '"') (['a'] ++ ['"'])) 'b'⟩ :=
  c4_amended_string_consumption '"' 'b' ['a'] [] startPos (Or.inl rfl)
    (by decide) (by decide)

/-- C5 counterexample: on the input `--\nx` the emitted comment text is
`"x"`, a character on the line after the `--` line — refuting the claim that
the lexer consumes at most to the end of the current line and that
characters on following lines are never part of the comment text. -/
theorem c5_comment_crosses_newline :
    tokenize "--\nx" = .done [⟨.Comment "x", ⟨1, 0⟩⟩] := by decide

/-- C5 amended: on `-` followed by `-`, the lexer consumes both, then skips
whitespace — including newlines, so when the remainder of the current line
is blank the text is taken from a following line — and then consumes to the
end of the then-current line; the comment text is that line content,
excluding the leading `--`, the skipped whitespace and the trailing newline
(the newline is consumed afterwards by the trailing skip). -/
theorem c5_amended_comment_text (rest : List Char) (p : TokenPosition) :
    next ⟨'-' :: '-' :: rest, p⟩ =
      .tok ⟨.Comment ⟨(rest.dropWhile rustIsWhitespace).takeWhile isNotNewline⟩, p⟩
        (advance ⟨(rest.dropWhile rustIsWhitespace).dropWhile isNotNewline,
          posAfter (advancePos (advancePos p '-') '-')
            (rest.takeWhile rustIsWhitespace ++
              (rest.dropWhile rustIsWhitespace).takeWhile isNotNewline)⟩) := by
  rw [next_cons _ _ _ (by decide), dispatch_comment]
  simp [advance, readLine_spec]

/-- C6: on a stream whose head is `#` immediately followed by `!`, the lexer
produces a `Hashbang` lexeme — whose text is obtained by skipping whitespace
after the `#!` and reading to end-of-line, hence excludes `#!` and any
trailing newline — if and only if the captured token start position is line
1, column 0; at any other start position it aborts with the fatal
misplaced-shebang error. -/
theorem c6_hashbang_iff_line1_col0 (rest : List Char) (p : TokenPosition) :
    next ⟨'#' :: '!' :: rest, p⟩ =
      if p.line = 1 ∧ p.pos = 0 then
        .tok ⟨.Hashbang ⟨(rest.dropWhile rustIsWhitespace).takeWhile isNotNewline⟩, p⟩
          (advance ⟨(rest.dropWhile rustIsWhitespace).dropWhile isNotNewline,
            posAfter (advancePos (advancePos p '#') '!')
              (rest.takeWhile rustIsWhitespace ++
                (rest.dropWhile rustIsWhitespace).takeWhile isNotNewline)⟩)
      else .fatal .shebangNotOnFirstLine := by
  rw [next_cons _ _ _ (by decide), dispatch_hashbang]
  by_cases hp : p.line = 1 ∧ p.pos = 0
  · simp [hp, advance, readLine_spec]
  · simp [hp]

/-- C8: the position state satisfies the claimed invariant: `line` starts at
1; consuming a newline increments `line` and resets `column` to 0; consuming
any other character increments `column` by one; and `line` never decreases
across any pull of the lexer. -/
theorem c8_position_invariant :
    startPos.line = 1 ∧
    (∀ p, advancePos p '\n' = ⟨p.line + 1, 0⟩) ∧
    (∀ p c, c ≠ '\n' → advancePos p c = ⟨p.line, p.pos + 1⟩) ∧
    (∀ s l s', next s = .tok l s' → s.pos.line ≤ s'.pos.line) := by
  refine ⟨rfl, ?_, ?_, ?_⟩
  · intro p
    simp [advancePos]
  · intro p c h
    simp [advancePos, h]
  · intro s l s' h
    exact next_line_le s l s' h

/-- C8 witness: the invariant applied at concrete inputs — a non-newline
character at line 2 column 7, and the pull of `(` from the start state. -/
theorem c8_position_invariant_witness :
    advancePos ⟨2, 7⟩ 'q' = ⟨2, 8⟩ ∧ startPos.line ≤ (1 : Nat) :=
  ⟨c8_position_invariant.2.2.1 ⟨2, 7⟩ 'q' (by decide),
    c8_position_invariant.2.2.2 ⟨['('], startPos⟩ ⟨.OpenParen, startPos⟩
      ⟨[], ⟨1, 1⟩⟩ (by decide)⟩

/-- C9: the lexer is deterministic — two fresh `Lexer` instances constructed
from the same source text produce identical results (same lexemes with the
same payloads and positions, and the same termination or fatal error); in
this pure embedding the whole run is a function of the source text alone. -/
theorem c9_deterministic (s1 s2 : String) (h : s1 = s2) :
    tokenize s1 = tokenize s2 := by
  rw [h]

/-- C9 witness: determinism applied at a concrete source text. -/
theorem c9_deterministic_witness : tokenize "1+2" = tokenize "1+2" :=
  c9_deterministic "1+2" "1+2" rfl

theorem scanNumLoop_allHex (ds : List Char) :
    ∀ p acc, (∀ c ∈ ds, isHexDigit c = true) →
      scanNumLoop true p ds false false acc = .ok (acc ++ ds, ⟨[], posAfter p ds⟩) := by
  induction ds with
  | nil =>
    intro p acc h
    simp [scanNumLoop, posAfter]
  | cons c ds ih =>
    intro p acc hall
    have hc : isHexDigit c = true := hall c (List.mem_cons_self c ds)
    have hdot : ¬c = '.' := by
      intro hh
      rw [hh] at hc
      exact absurd hc (by decide)
    unfold scanNumLoop
    simp only [hdot, if_false, Bool.false_and, Bool.true_and, Bool.not_true,
      Bool.false_or, Bool.or_false, hc, if_true, ite_false, ite_true]
    rw [if_neg (by decide : ¬(false = true))]
    rw [ih (advancePos p c) (acc ++ [c]) (fun d hd => hall d (List.mem_cons_of_mem c hd))]
    simp [posAfter_cons, List.append_assoc]

theorem i64FromStrRadix16_overflow (ds : List Char) (hne : ds ≠ [])
    (hhex : ∀ c ∈ ds, isHexDigit c = true)
    (hbig : 2 ^ 63 - 1 < hexNatVal ds) :
    i64FromStrRadix16 ds = none := by
  cases ds with
  | nil => exact absurd rfl hne
  | cons d0 ds0 =>
    have h0 : isHexDigit d0 = true := hhex d0 (List.mem_cons_self d0 ds0)
    have hp : ¬d0 = '+' := by
      intro hh
      rw [hh] at h0
      exact absurd h0 (by decide)
    have hm : ¬d0 = '-' := by
      intro hh
      rw [hh] at h0
      exact absurd h0 (by decide)
    unfold i64FromStrRadix16
    simp only [hp, hm, if_false, ite_false]
    simp [List.all_eq_true, hhex, Nat.not_le.mpr hbig]
    intro hx2
    omega

/-- C10: a hexadecimal literal `0x`/`0X` followed by hexadecimal digits
whose value exceeds the signed 64-bit maximum makes the pull abort with the
fatal error of the failed `i64::from_str_radix` parse, rather than emitting
a `Number`. -/
theorem c10_hex_overflow_fatal (hx : Char) (ds : List Char) (p : TokenPosition)
    (hhx : hx = 'x' ∨ hx = 'X') (hne : ds ≠ [])
    (hhex : ∀ c ∈ ds, isHexDigit c = true)
    (hbig : 2 ^ 63 - 1 < hexNatVal ds) :
    next ⟨'0' :: hx :: ds, p⟩ = .fatal (.hexnumParseFailed ⟨ds⟩) := by
  rw [next_cons _ _ _ (by decide), dispatch_zero]
  cases ds with
  | nil => exact absurd rfl hne
  | cons d0 ds0 =>
    have h0 : isHexDigit d0 = true := hhex d0 (List.mem_cons_self d0 ds0)
    unfold scanNumber
    rcases hhx with h | h <;> subst h <;>
      · unfold hexModeCheck
        simp only [List.head?, List.get?, h0, advance, decide_True, decide_False,
          Bool.true_or, Bool.or_true, if_true, ite_true, Bool.not_true, if_false,
          ite_false, ne_eq, not_true_eq_false, Bool.false_eq_true, not_false_eq_true]
        rw [scanNumLoop_allHex (d0 :: ds0) _ [] hhex]
        simp [i64FromStrRadix16_overflow (d0 :: ds0) hne hhex hbig]

/-- C10 witness: the literal `0xFFFFFFFFFFFFFFFF` (value `2^64 - 1`, above
the signed 64-bit maximum) makes the pull abort. -/
theorem c10_hex_overflow_fatal_witness :
    next ⟨'0' :: 'x' :: "FFFFFFFFFFFFFFFF".data, startPos⟩ =
      .fatal (.hexnumParseFailed ⟨"FFFFFFFFFFFFFFFF".data⟩) :=
  c10_hex_overflow_fatal 'x' "FFFFFFFFFFFFFFFF".data startPos (Or.inl rfl)
    (by decide) (by decide) (by decide)

/-- C1: evaluation at the failing input — on `"ab`, where the stream ends
before a closing delimiter, the lexer terminates normally and emits the
`StringLiteral` with the content read so far instead of aborting with an
unterminated-string error. -/
theorem c1_unterminated_string_lexes :
    tokenize "\"ab" = .done [⟨.StaticString "ab", ⟨1, 0⟩⟩] := by decide

/-- C2: evaluation at the failing inputs — `1+2` lexes to two `Number`
lexemes with no `Add` between them, because the trailing skip consumes and
discards the `+` that terminated the first numeral; and `1e5+2` aborts with
the unexpected-character-in-exponent panic instead of terminating the
numeral at `+`. -/
theorem c2_number_terminator_swallowed :
    tokenize "1+2" =
        .done [⟨.Number (.dec "1"), ⟨1, 0⟩⟩, ⟨.Number (.dec "2"), ⟨1, 2⟩⟩] ∧
      tokenize "1e5+2" = .fatal [] (.unexpectedCharInExponent '+') := by decide

/-- C3: evaluation at the failing input — on `1E-5` the scanner pushes the
exponent marker again instead of the minus sign, building the buffer `1EE5`,
whose floating-point parse fails, so lexing aborts with the fatal
malformed-number error instead of emitting `Number(1e-5)`. -/
theorem c3_negative_exponent_malformed :
    tokenize "1E-5" = .fatal [] (.malformedNumber "1EE5") := by decide

theorem dispatch_dot_dot (p : TokenPosition) (cs1 : List Char) :
    dispatch p '.' ('.' :: cs1) =
      .ok ((scanOp2 (advancePos p '.') '.' cs1 '.' .VarArgs .Concat).1,
        (scanOp2 (advancePos p '.') '.' cs1 '.' .VarArgs .Concat).2, false) := rfl

theorem dispatch_dot_nil (p : TokenPosition) :
    dispatch p '.' [] = .ok (.MemberAccess, ⟨['.'], p⟩, false) := rfl

theorem dispatch_dot_default (p : TokenPosition) (c1 : Char) (cs1 : List Char)
    (h : ¬c1 = '.') :
    dispatch p '.' (c1 :: cs1) = .ok (.MemberAccess, ⟨'.' :: c1 :: cs1, p⟩, false) := by
  unfold dispatch
  split <;> simp_all

/-- C7: dot-token scanning is maximal-munch, for every remaining stream
`rest` and every start position: `.` followed by `.` and a third `.` emits
`VarArgs` consuming all three dots; `.` followed by `.` but no third dot
(end-of-stream or another character) emits `Concat` consuming exactly the
two dots; `.` not followed by `.` emits `MemberAccess` consuming exactly the
one dot — in each case the remaining buffer is exactly `rest`, whose head is
the first character of the next pull; consequently the input `. .. ...`
lexes to exactly `MemberAccess`, `Concat`, `VarArgs`. -/
theorem c7_dot_maximal_munch (rest : List Char) (p : TokenPosition) :
    (next ⟨'.' :: '.' :: '.' :: rest, p⟩ =
        .tok ⟨.VarArgs, p⟩
          ⟨rest, advancePos (advancePos (advancePos p '.') '.') '.'⟩) ∧
    (rest.head? ≠ some '.' →
      next ⟨'.' :: '.' :: rest, p⟩ =
        .tok ⟨.Concat, p⟩ ⟨rest, advancePos (advancePos p '.') '.'⟩) ∧
    (rest.head? ≠ some '.' →
      next ⟨'.' :: rest, p⟩ =
        .tok ⟨.MemberAccess, p⟩ ⟨rest, advancePos p '.'⟩) ∧
    tokenize ". .. ..." =
      .done [⟨.MemberAccess, ⟨1, 0⟩⟩, ⟨.Concat, ⟨1, 2⟩⟩, ⟨.VarArgs, ⟨1, 5⟩⟩] := by
  refine ⟨?_, ?_, ?_, by decide⟩
  · rw [next_cons _ _ _ (by decide), dispatch_dot_dot]
    simp [scanOp2, advance]
  · intro h
    rw [next_cons _ _ _ (by decide), dispatch_dot_dot]
    cases hr : rest.head? with
    | none => simp [scanOp2, hr, advance]
    | some c1 =>
      have hc : ¬c1 = '.' := fun hh => h (by rw [hr, hh])
      simp [scanOp2, hr, hc, advance]
  · intro h
    rw [next_cons _ _ _ (by decide)]
    cases rest with
    | nil =>
      rw [dispatch_dot_nil]
      simp [advance]
    | cons c1 cs1 =>
      have hc : ¬c1 = '.' := fun hh => h (by simp [hh])
      rw [dispatch_dot_default _ _ _ hc]
      simp [advance]

/-- C7 witness: the three consumption rules applied at the concrete inputs
`...x`, `..x` and `.x` from the start position. -/
theorem c7_dot_maximal_munch_witness :
    next ⟨'.' :: '.' :: '.' :: ['x'], startPos⟩ =
        .tok ⟨.VarArgs, startPos⟩ ⟨['x'], ⟨1, 3⟩⟩ ∧
    next ⟨'.' :: '.' :: ['x'], startPos⟩ =
        .tok ⟨.Concat, startPos⟩ ⟨['x'], ⟨1, 2⟩⟩ ∧
    next ⟨'.' :: ['x'], startPos⟩ =
        .tok ⟨.MemberAccess, startPos⟩ ⟨['x'], ⟨1, 1⟩⟩ :=
  ⟨(c7_dot_maximal_munch ['x'] startPos).1,
    (c7_dot_maximal_munch ['x'] startPos).2.1 (by decide),
    (c7_dot_maximal_munch ['x'] startPos).2.2.1 (by decide)⟩

end Lua5
